import Mathlib

/-!
# procdump: the process list of `winproclist.c`

A shallow embedding of the relationship derivation of `proclist_get`, of the two
lookups `proclist_find_by_pid` and `proclist_find_parent_by_name`, and of the byte
clamping of `GetProcessCommandLine`, followed by the properties proved about them.

Conventions of the embedding:

* a `PROCLIST_ENTRY *list_ptr` together with its `size_t list_count` is a
  `List PROCLIST_ENTRY`; `list[i]` is `getEntry list i`;
* `uint32_t`, `size_t` and `USHORT` values are natural numbers; `size_t` and `USHORT`
  arithmetic is reduced modulo `2^64` and `2^16` where the source computes;
* a zero-terminated `wchar_t` string is the list of its characters;
* a buffer of `wchar_t` is the list of its bytes, two per character, low byte first.
-/

set_option autoImplicit false

namespace Procdump

/-! ## Data model (`winproclist.h`) -/

/-- Details about a single process from the process list. -/
structure PROCLIST_ENTRY where
  process_id : Nat
  parent_id : Nat
  module_name : List Nat
  num_children : Nat
  parent_has_same_module_name : Bool
  num_threads : Nat
  filename : List Nat
  commandline : List Nat
deriving DecidableEq

/-- The value of `PROCLIST_ENTRY info = {0}`. -/
def zeroEntry : PROCLIST_ENTRY :=
  { process_id := 0, parent_id := 0, module_name := [], num_children := 0,
    parent_has_same_module_name := false, num_threads := 0, filename := [],
    commandline := [] }

/-- The array access `list[i]`. -/
def getEntry (list : List PROCLIST_ENTRY) (i : Nat) : PROCLIST_ENTRY :=
  list.getD i zeroEntry

/-- Number of values of a `size_t` (64-bit Windows). -/
def SIZE_RANGE : Nat := 2 ^ 64

/-- Number of values of a `USHORT`. -/
def USHORT_RANGE : Nat := 2 ^ 16

/-! ## The C runtime's `_wcsicmp` -/

/-- Lower-casing of one wide character in the "C" locale: only `A`..`Z` change. -/
def towlower (c : Nat) : Nat :=
  if 65 ≤ c ∧ c ≤ 90 then c + 32 else c

/-- The C runtime's `_wcsicmp`: walks both strings while the lower-cased characters
are equal and not the terminator, and returns the difference of the first pair that
stops the walk.  The end of a list is the terminator `0`. -/
def wcsicmp : List Nat → List Nat → Int
  | a :: as, b :: bs =>
      if towlower a = towlower b ∧ towlower a ≠ 0 then wcsicmp as bs
      else (towlower a : Int) - (towlower b : Int)
  | a :: _, [] => (towlower a : Int)
  | [], b :: _ => - (towlower b : Int)
  | [], [] => 0

/-! ## Lookups (`winproclist.c`, lines 62-95) -/

/-- The loop of `proclist_find_parent_by_name`, from `iproc = index` over the entries
not yet visited; falls through to `return 0`. -/
def find_parent_by_name_loop (name : List Nat) : List PROCLIST_ENTRY → Nat → Nat
  | [], _ => 0
  | e :: rest, iproc =>
      if wcsicmp name e.module_name ≠ 0 then find_parent_by_name_loop name rest (iproc + 1)
      else if e.parent_has_same_module_name then find_parent_by_name_loop name rest (iproc + 1)
      else iproc

/-- Searches the process list for a process whose module name matches the given name
and whose parent has a different module name.  `name = none` is the null pointer; a
null `list_ptr` is covered by the empty list, which the same guard rejects. -/
def proclist_find_parent_by_name (list : List PROCLIST_ENTRY) (name : Option (List Nat)) : Nat :=
  match name with
  | none => 0
  | some n => if list.length < 1 then 0 else find_parent_by_name_loop n list 0

/-- The loop of `proclist_find_by_pid`, from `index` over the entries not yet
visited; falls through to `return 0`.  The `int index` of the source is a natural
number here: it only takes the values `0 .. list_count`. -/
def find_by_pid_loop (pid : Nat) : List PROCLIST_ENTRY → Nat → Nat
  | [], _ => 0
  | e :: rest, index =>
      if e.process_id = pid then index else find_by_pid_loop pid rest (index + 1)

/-- Searches the process list for a process with the specified PID. -/
def proclist_find_by_pid (list : List PROCLIST_ENTRY) (pid : Nat) : Nat :=
  find_by_pid_loop pid list 0

/-! ## Relationship derivation (`proclist_get`, lines 232-254) -/

/-- Body of the inner loop that counts children (lines 235-241). -/
def countStep (iparent : Nat) (list : List PROCLIST_ENTRY) (ichild : Nat) :
    List PROCLIST_ENTRY :=
  if iparent = ichild then list
  else if (getEntry list iparent).process_id = (getEntry list ichild).parent_id then
    list.set iparent
      { getEntry list iparent with
        num_children := ((getEntry list iparent).num_children + 1) % SIZE_RANGE }
  else list

/-- The inner loop `for (ichild = 0; ichild < count; ++ichild)` for one `iparent`. -/
def countInner (count : Nat) (list : List PROCLIST_ENTRY) (iparent : Nat) :
    List PROCLIST_ENTRY :=
  (List.range count).foldl (countStep iparent) list

/-- Count how many children each process has (lines 232-243). -/
def countChildren (list : List PROCLIST_ENTRY) : List PROCLIST_ENTRY :=
  (List.range list.length).foldl (countInner list.length) list

/-- Body of the loop that compares each process with its parent (lines 247-253). -/
def sameNameStep (list : List PROCLIST_ENTRY) (ichild : Nat) : List PROCLIST_ENTRY :=
  let parent_index := proclist_find_by_pid list (getEntry list ichild).parent_id
  if parent_index = 0 then list
  else if wcsicmp (getEntry list ichild).module_name
      (getEntry list parent_index).module_name = 0 then
    list.set ichild { getEntry list ichild with parent_has_same_module_name := true }
  else list

/-- Determine if each process's parent has the same module name (lines 245-254). -/
def markSameName (list : List PROCLIST_ENTRY) : List PROCLIST_ENTRY :=
  (List.range list.length).foldl sameNameStep list

/-- The derivation step of `proclist_get`: both loops, in the order of the source. -/
def derive (list : List PROCLIST_ENTRY) : List PROCLIST_ENTRY :=
  markSameName (countChildren list)

/-! ## Building the list (`proclist_get`, lines 199-226) -/

/-- The fields of the Toolhelp record `PROCESSENTRY32W` that `proclist_get` reads. -/
structure PROCESSENTRY32W where
  th32ProcessID : Nat
  th32ParentProcessID : Nat
  cntThreads : Nat
  szExeFile : List Nat

/-- One iteration of the loop that builds the list: `info` starts as `{0}`, receives
the fields of the Toolhelp record and the two texts of the enrichment, and is stored
at the end of the list. -/
def appendEntry (enrich : Nat → List Nat × List Nat) (list : List PROCLIST_ENTRY)
    (process : PROCESSENTRY32W) : List PROCLIST_ENTRY :=
  list ++ [{ zeroEntry with
    process_id := process.th32ProcessID
    parent_id := process.th32ParentProcessID
    num_threads := process.cntThreads
    module_name := process.szExeFile
    filename := (enrich process.th32ProcessID).1
    commandline := (enrich process.th32ProcessID).2 }]

/-- The list as it stands before the derivation step. -/
def collect (enrich : Nat → List Nat × List Nat) (snapshot : List PROCESSENTRY32W) :
    List PROCLIST_ENTRY :=
  snapshot.foldl (appendEntry enrich) []

/-- The whole of `proclist_get`; `snapshot = none` is the failure of
`CreateToolhelp32Snapshot`. -/
def proclist_get (enrich : Nat → List Nat × List Nat)
    (snapshot : Option (List PROCESSENTRY32W)) : Option (List PROCLIST_ENTRY) :=
  match snapshot with
  | none => none
  | some procs => some (derive (collect enrich procs))

/-! ## `GetProcessCommandLine` (lines 101-137) -/

/-- What the operating system answers for one process handle: the status and the PEB
address given by `NtQueryInformationProcess`, the `CommandLine.Length` found in the
parameter block that was read, and the bytes readable at `CommandLine.Buffer`.  The
source does not test the two reads that fetch the PEB and the parameter block, so
`Length` and `Buffer` stand for whatever those reads left in `params`. -/
structure TargetProcess where
  queryStatus : Nat
  ppeb : Nat
  Length : Nat
  Buffer : List Nat

/-- The call `memset(cmd, 0, n)`. -/
def memset (buf : List Nat) (n : Nat) : List Nat :=
  List.replicate n 0 ++ buf.drop n

/-- The call `ReadProcessMemory(h, src, dst, n, NULL)`: copies `n` bytes when all of
them are readable in the target, and fails leaving `dst` alone otherwise. -/
def ReadProcessMemory (src dst : List Nat) (n : Nat) : Bool × List Nat :=
  if n ≤ src.length then (true, src.take n ++ dst.drop n) else (false, dst)

/-- The constant `max_bytes = (USHORT)(cmd_max * sizeof(wchar_t) - 1)` (line 129). -/
def max_bytes (cmd_max : Nat) : Nat :=
  ((cmd_max * 2) % SIZE_RANGE + (SIZE_RANGE - 1)) % SIZE_RANGE % USHORT_RANGE

/-- The byte count given to the last `ReadProcessMemory` (lines 128-131). -/
def copy_bytes (cmd_max Length : Nat) : Nat :=
  let bytes := Length % USHORT_RANGE
  if bytes > max_bytes cmd_max then max_bytes cmd_max else bytes

/-- Retrieves the command line text for the given process handle.  `hProcess = none`
and `cmd = none` are null; `cmd` is the destination buffer as bytes. -/
def GetProcessCommandLine (hProcess : Option TargetProcess) (cmd : Option (List Nat))
    (cmd_max : Nat) : Bool × Option (List Nat) :=
  match hProcess, cmd with
  | some t, some buf =>
      if cmd_max = 0 then (false, some buf)
      else
        let buf0 := memset buf ((cmd_max * 2) % SIZE_RANGE)
        if t.queryStatus ≠ 0 then (false, some buf0)
        else if t.ppeb = 0 then (false, some buf0)
        else
          let r := ReadProcessMemory t.Buffer buf0 (copy_bytes cmd_max t.Length)
          (r.1, some r.2)
  | _, _ => (false, cmd)

/-- The wide character `cmd[i]` of a buffer of bytes (low byte first). -/
def wcharAt (buf : List Nat) (i : Nat) : Nat :=
  buf.getD (2 * i) 0 + 256 * buf.getD (2 * i + 1) 0

/-- The bytes of a wide-character text in the memory of the target. -/
def wideBytes : List Nat → List Nat
  | [] => []
  | c :: cs => c % 256 :: c / 256 % 256 :: wideBytes cs

/-! ## The scenario of three processes -/

/-- The three processes of the scenario: init, shell, shell. -/
def scenario : List PROCLIST_ENTRY :=
  [ { zeroEntry with process_id := 1, parent_id := 0, module_name := [105, 110, 105, 116] },
    { zeroEntry with process_id := 2, parent_id := 1, module_name := [115, 104, 101, 108, 108] },
    { zeroEntry with process_id := 3, parent_id := 2, module_name := [115, 104, 101, 108, 108] } ]

/-! ## Vocabulary of the statements and of the proofs -/

/-- The common shape of the two lookup loops: the index of the first entry accepted
by `p`, counted from `s`, and `0` when the loop runs off the end. -/
def firstIndexFrom (p : PROCLIST_ENTRY → Bool) : List PROCLIST_ENTRY → Nat → Nat
  | [], _ => 0
  | e :: rest, s => if p e then s else firstIndexFrom p rest (s + 1)

/-- An entry with its `num_children` forgotten. -/
def withoutChildren (e : PROCLIST_ENTRY) : PROCLIST_ENTRY :=
  { e with num_children := 0 }

/-- An entry with its `parent_has_same_module_name` forgotten. -/
def withoutFlag (e : PROCLIST_ENTRY) : PROCLIST_ENTRY :=
  { e with parent_has_same_module_name := false }

/-- Position `j` holds a child of position `i`: another position whose `parent_id` is
the `process_id` found at `i`. -/
def isChildOf (l : List PROCLIST_ENTRY) (i j : Nat) : Bool :=
  decide (j ≠ i) && decide ((getEntry l j).parent_id = (getEntry l i).process_id)

/-- Number of children of position `i` among the first `k` positions. -/
def childCount (l : List PROCLIST_ENTRY) (i k : Nat) : Nat :=
  (List.range k).countP (isChildOf l i)

/-- The test made for position `ichild` by the second loop: the lookup of the parent
gives a non-zero index and the two module names compare equal. -/
def parentMatches (l : List PROCLIST_ENTRY) (ichild : Nat) : Bool :=
  decide (proclist_find_by_pid l (getEntry l ichild).parent_id ≠ 0) &&
    decide (wcsicmp (getEntry l ichild).module_name
      (getEntry l (proclist_find_by_pid l (getEntry l ichild).parent_id)).module_name = 0)

/-- Two entries with pids 7 and 9, used to instantiate the lookup properties. -/
def twoEntries : List PROCLIST_ENTRY :=
  [ { zeroEntry with process_id := 7, module_name := [97] },
    { zeroEntry with process_id := 9, module_name := [98] } ]

/-- A process at the head of the list with a child of the same module name. -/
def parentAtHead : List PROCLIST_ENTRY :=
  [ { zeroEntry with process_id := 1, parent_id := 0, module_name := [115, 104, 101, 108, 108] },
    { zeroEntry with process_id := 2, parent_id := 1, module_name := [115, 104, 101, 108, 108] } ]

/-- Position `j` has its parent at some other position of the list. -/
def hasParentElsewhere (l : List PROCLIST_ENTRY) (j : Nat) : Bool :=
  decide (∃ i, i < l.length ∧ i ≠ j ∧ (getEntry l i).process_id = (getEntry l j).parent_id)

/-- A command line of 4096 letters `a`, as long as the `commandline` field. -/
def longCommandLine : List Nat := List.replicate 4096 97

/-- A process whose queries succeed and whose command line is `longCommandLine`. -/
def longTarget : TargetProcess :=
  { queryStatus := 0, ppeb := 1, Length := 2 * longCommandLine.length,
    Buffer := wideBytes longCommandLine }

/-- The destination before the call: 4096 wide characters, all bytes zero. -/
def emptyCommandLineField : List Nat := List.replicate (4096 * 2) 0

/-! ## Indexing lemmas -/

theorem getEntry_cons_zero (e : PROCLIST_ENTRY) (l : List PROCLIST_ENTRY) :
    getEntry (e :: l) 0 = e := rfl

theorem getEntry_cons_succ (e : PROCLIST_ENTRY) (l : List PROCLIST_ENTRY) (i : Nat) :
    getEntry (e :: l) (i + 1) = getEntry l i := rfl

theorem getEntry_mem (l : List PROCLIST_ENTRY) (i : Nat) (h : i < l.length) :
    getEntry l i ∈ l := by
  induction l generalizing i with
  | nil => simp at h
  | cons e rest ih =>
    cases i with
    | zero => simp [getEntry_cons_zero]
    | succ k =>
      rw [getEntry_cons_succ]
      exact List.mem_cons_of_mem _ (ih k (by simpa using h))

theorem exists_index_of_mem (l : List PROCLIST_ENTRY) (e : PROCLIST_ENTRY) (h : e ∈ l) :
    ∃ i, i < l.length ∧ getEntry l i = e := by
  induction l with
  | nil => simp at h
  | cons a rest ih =>
    rcases List.mem_cons.1 h with rfl | h
    · exact ⟨0, by simp, rfl⟩
    · obtain ⟨i, hi, he⟩ := ih h
      exact ⟨i + 1, by simpa using hi, by rw [getEntry_cons_succ]; exact he⟩

/-! ## First-match loops -/

theorem find_by_pid_loop_eq (pid : Nat) (l : List PROCLIST_ENTRY) (s : Nat) :
    find_by_pid_loop pid l s = firstIndexFrom (fun e => decide (e.process_id = pid)) l s := by
  induction l generalizing s with
  | nil => rfl
  | cons e rest ih => simp [find_by_pid_loop, firstIndexFrom, ih]

theorem find_parent_by_name_loop_eq (name : List Nat) (l : List PROCLIST_ENTRY) (s : Nat) :
    find_parent_by_name_loop name l s =
      firstIndexFrom (fun e => decide (wcsicmp name e.module_name = 0) &&
        !e.parent_has_same_module_name) l s := by
  induction l generalizing s with
  | nil => rfl
  | cons e rest ih =>
    simp only [find_parent_by_name_loop, firstIndexFrom, ih]
    by_cases h1 : wcsicmp name e.module_name = 0 <;>
      by_cases h2 : e.parent_has_same_module_name = true <;> simp [h1, h2]

theorem firstIndexFrom_found (p : PROCLIST_ENTRY → Bool) (l : List PROCLIST_ENTRY) (s : Nat)
    (h : ∃ e ∈ l, p e = true) :
    ∃ i, i < l.length ∧ firstIndexFrom p l s = s + i ∧ p (getEntry l i) = true ∧
      ∀ j, j < i → p (getEntry l j) = false := by
  induction l generalizing s with
  | nil => simp at h
  | cons e rest ih =>
    by_cases hp : p e = true
    · exact ⟨0, by simp, by simp [firstIndexFrom, hp], by simpa [getEntry_cons_zero] using hp,
        by intro j hj; omega⟩
    · have h' : ∃ x ∈ rest, p x = true := by
        obtain ⟨x, hx, hpx⟩ := h
        rcases List.mem_cons.1 hx with rfl | hx
        · exact absurd hpx hp
        · exact ⟨x, hx, hpx⟩
      obtain ⟨i, hi, hres, hpi, hmin⟩ := ih (s + 1) h'
      refine ⟨i + 1, by simpa using hi, ?_, by rw [getEntry_cons_succ]; exact hpi, ?_⟩
      · simp only [firstIndexFrom, hp]
        simp only [Bool.false_eq_true, if_false] at *
        omega
      · intro j hj
        cases j with
        | zero => simpa [getEntry_cons_zero] using hp
        | succ k => rw [getEntry_cons_succ]; exact hmin k (by omega)

theorem firstIndexFrom_none (p : PROCLIST_ENTRY → Bool) (l : List PROCLIST_ENTRY) (s : Nat)
    (h : ∀ e ∈ l, p e = false) : firstIndexFrom p l s = 0 := by
  induction l generalizing s with
  | nil => rfl
  | cons e rest ih =>
    have he : p e = false := h e (List.mem_cons_self _ _)
    simp only [firstIndexFrom, he]
    exact ih (s + 1) (fun x hx => h x (List.mem_cons_of_mem _ hx))

/-- The index returned by `proclist_find_by_pid` when the pid is present. -/
theorem find_by_pid_found (l : List PROCLIST_ENTRY) (pid : Nat)
    (h : ∃ e ∈ l, e.process_id = pid) :
    proclist_find_by_pid l pid < l.length ∧
      (getEntry l (proclist_find_by_pid l pid)).process_id = pid ∧
      ∀ j, j < proclist_find_by_pid l pid → (getEntry l j).process_id ≠ pid := by
  have h' : ∃ e ∈ l, (fun e : PROCLIST_ENTRY => decide (e.process_id = pid)) e = true := by
    obtain ⟨e, he, hp⟩ := h
    exact ⟨e, he, by simpa using hp⟩
  obtain ⟨i, hi, hres, hpi, hmin⟩ := firstIndexFrom_found _ l 0 h'
  have hr : proclist_find_by_pid l pid = i := by
    rw [proclist_find_by_pid, find_by_pid_loop_eq, hres]; omega
  rw [hr]
  refine ⟨hi, by simpa using hpi, ?_⟩
  intro j hj
  simpa using hmin j hj

/-- The value returned by `proclist_find_by_pid` when the pid is absent. -/
theorem find_by_pid_absent (l : List PROCLIST_ENTRY) (pid : Nat)
    (h : ∀ e ∈ l, e.process_id ≠ pid) : proclist_find_by_pid l pid = 0 := by
  rw [proclist_find_by_pid, find_by_pid_loop_eq]
  exact firstIndexFrom_none _ l 0 (fun e he => by simpa using h e he)

/-! ## Frames: what the two derivation loops leave alone -/

theorem getEntry_set (l : List PROCLIST_ENTRY) (i j : Nat) (x : PROCLIST_ENTRY) :
    getEntry (l.set i x) j = if i = j ∧ i < l.length then x else getEntry l j := by
  unfold getEntry
  simp only [List.getD_eq_getElem?_getD, List.getElem?_set]
  by_cases hij : i = j
  · subst hij
    by_cases hi : i < l.length
    · simp [hi]
    · simp [hi, List.getElem?_eq_none (Nat.le_of_not_lt hi)]
  · simp [hij]

theorem map_eq_of_getEntry {α : Type} (f : PROCLIST_ENTRY → α) (l r : List PROCLIST_ENTRY)
    (hlen : l.length = r.length) (h : ∀ j, f (getEntry l j) = f (getEntry r j)) :
    l.map f = r.map f := by
  induction l generalizing r with
  | nil =>
    cases r with
    | nil => rfl
    | cons b r => simp at hlen
  | cons a l ih =>
    cases r with
    | nil => simp at hlen
    | cons b r =>
      have h0 := h 0
      simp only [getEntry_cons_zero] at h0
      have hrest := ih r (by simpa using hlen) (fun j => by simpa [getEntry_cons_succ] using h (j + 1))
      simp [h0, hrest]

theorem find_by_pid_loop_congr (pid : Nat) (l r : List PROCLIST_ENTRY) (s : Nat)
    (h : l.map (fun e => e.process_id) = r.map (fun e => e.process_id)) :
    find_by_pid_loop pid l s = find_by_pid_loop pid r s := by
  induction l generalizing r s with
  | nil =>
    cases r with
    | nil => rfl
    | cons b r => simp at h
  | cons a l ih =>
    cases r with
    | nil => simp at h
    | cons b r =>
      simp only [List.map_cons, List.cons.injEq] at h
      simp only [find_by_pid_loop, h.1, ih r (s + 1) h.2]

theorem childCount_succ (l : List PROCLIST_ENTRY) (i k : Nat) :
    childCount l i (k + 1) = childCount l i k + (if isChildOf l i k = true then 1 else 0) := by
  unfold childCount
  rw [List.range_succ, List.countP_append]
  by_cases h : isChildOf l i k = true <;> simp [List.countP_cons, h]

theorem childCount_le (l : List PROCLIST_ENTRY) (i k : Nat) : childCount l i k ≤ k := by
  unfold childCount
  exact (List.countP_le_length _).trans (by simp)

theorem isChildOf_congr (l r : List PROCLIST_ENTRY)
    (h : ∀ j, withoutChildren (getEntry r j) = withoutChildren (getEntry l j)) (i j : Nat) :
    isChildOf r i j = isChildOf l i j := by
  have hp : ∀ j, (getEntry r j).process_id = (getEntry l j).process_id :=
    fun j => by
      have := congrArg (fun e => PROCLIST_ENTRY.process_id e) (h j)
      exact this
  have hq : ∀ j, (getEntry r j).parent_id = (getEntry l j).parent_id :=
    fun j => by
      have := congrArg (fun e => PROCLIST_ENTRY.parent_id e) (h j)
      exact this
  simp only [isChildOf, hp, hq]

theorem childCount_congr (l r : List PROCLIST_ENTRY)
    (h : ∀ j, withoutChildren (getEntry r j) = withoutChildren (getEntry l j)) (i k : Nat) :
    childCount r i k = childCount l i k := by
  unfold childCount
  congr 1
  funext j
  exact isChildOf_congr l r h i j

/-! ## The first loop: counting children -/

theorem countStep_length (ip : Nat) (l : List PROCLIST_ENTRY) (ic : Nat) :
    (countStep ip l ic).length = l.length := by
  unfold countStep
  split
  · rfl
  · split
    · simp
    · rfl

theorem countStep_frame (ip : Nat) (l : List PROCLIST_ENTRY) (ic j : Nat) :
    withoutChildren (getEntry (countStep ip l ic) j) = withoutChildren (getEntry l j) := by
  unfold countStep
  split
  · rfl
  · split
    · rw [getEntry_set]
      split
      · rename_i h
        rw [← h.1]
        rfl
      · rfl
    · rfl

theorem countStep_other (ip : Nat) (l : List PROCLIST_ENTRY) (ic j : Nat) (hj : j ≠ ip) :
    getEntry (countStep ip l ic) j = getEntry l j := by
  unfold countStep
  split
  · rfl
  · split
    · rw [getEntry_set]
      split
      · rename_i h
        exact absurd h.1.symm hj
      · rfl
    · rfl

theorem countStep_self (ip : Nat) (l : List PROCLIST_ENTRY) (ic : Nat) (hip : ip < l.length) :
    (getEntry (countStep ip l ic) ip).num_children =
      if isChildOf l ip ic = true then ((getEntry l ip).num_children + 1) % SIZE_RANGE
      else (getEntry l ip).num_children := by
  unfold countStep isChildOf
  by_cases h1 : ip = ic
  · subst h1
    simp
  · have h1' : ic ≠ ip := fun h => h1 h.symm
    by_cases h2 : (getEntry l ip).process_id = (getEntry l ic).parent_id
    · simp [h1, h1', h2, getEntry_set, hip]
    · have h2' : ¬ (getEntry l ic).parent_id = (getEntry l ip).process_id := fun h => h2 h.symm
      simp [h1, h1', h2, h2']

/-- State of the inner loop after its first `k` iterations. -/
theorem countInner_steps (ip : Nat) (l : List PROCLIST_ENTRY) (k : Nat) :
    ((List.range k).foldl (countStep ip) l).length = l.length ∧
    (∀ j, withoutChildren (getEntry ((List.range k).foldl (countStep ip) l) j) =
      withoutChildren (getEntry l j)) ∧
    (∀ j, j ≠ ip → getEntry ((List.range k).foldl (countStep ip) l) j = getEntry l j) ∧
    (ip < l.length → (getEntry l ip).num_children + childCount l ip k < SIZE_RANGE →
      (getEntry ((List.range k).foldl (countStep ip) l) ip).num_children =
        (getEntry l ip).num_children + childCount l ip k) := by
  induction k with
  | zero => simp [childCount]
  | succ k ih =>
    obtain ⟨hlen, hframe, hother, hself⟩ := ih
    rw [List.range_succ, List.foldl_append]
    simp only [List.foldl_cons, List.foldl_nil]
    refine ⟨?_, ?_, ?_, ?_⟩
    · rw [countStep_length, hlen]
    · intro j
      rw [countStep_frame, hframe]
    · intro j hj
      rw [countStep_other _ _ _ _ hj, hother j hj]
    · intro hip hbound
      rw [childCount_succ] at hbound
      rw [countStep_self _ _ _ (by rw [hlen]; exact hip), isChildOf_congr l _ hframe,
        hself hip (by omega), childCount_succ]
      by_cases hc : isChildOf l ip k = true
      · simp only [hc, if_true] at hbound ⊢
        rw [Nat.mod_eq_of_lt (by omega)]
        omega
      · simp only [hc, if_false]
        rfl

/-- State of the list after the whole inner loop for one `iparent`. -/
theorem countInner_spec (n : Nat) (l : List PROCLIST_ENTRY) (ip : Nat) :
    (countInner n l ip).length = l.length ∧
    (∀ j, withoutChildren (getEntry (countInner n l ip) j) = withoutChildren (getEntry l j)) ∧
    (∀ j, j ≠ ip → getEntry (countInner n l ip) j = getEntry l j) ∧
    (ip < l.length → (getEntry l ip).num_children + childCount l ip n < SIZE_RANGE →
      (getEntry (countInner n l ip) ip).num_children =
        (getEntry l ip).num_children + childCount l ip n) :=
  countInner_steps ip l n

/-- State of the outer loop after its first `k` iterations. -/
theorem countChildren_steps (l : List PROCLIST_ENTRY) (n : Nat) (hn : n = l.length) (k : Nat) :
    ((List.range k).foldl (countInner n) l).length = l.length ∧
    (∀ j, withoutChildren (getEntry ((List.range k).foldl (countInner n) l) j) =
      withoutChildren (getEntry l j)) ∧
    (∀ j, k ≤ j → getEntry ((List.range k).foldl (countInner n) l) j = getEntry l j) ∧
    (∀ i, i < k → i < n → (getEntry l i).num_children + childCount l i n < SIZE_RANGE →
      (getEntry ((List.range k).foldl (countInner n) l) i).num_children =
        (getEntry l i).num_children + childCount l i n) := by
  induction k with
  | zero => simp
  | succ k ih =>
    obtain ⟨hlen, hframe, hrest, hdone⟩ := ih
    rw [List.range_succ, List.foldl_append]
    simp only [List.foldl_cons, List.foldl_nil]
    obtain ⟨ilen, iframe, iother, iself⟩ :=
      countInner_spec n ((List.range k).foldl (countInner n) l) k
    refine ⟨?_, ?_, ?_, ?_⟩
    · rw [ilen, hlen]
    · intro j
      rw [iframe, hframe]
    · intro j hj
      rw [iother j (by omega), hrest j (by omega)]
    · intro i hi hin hbound
      by_cases hik : i = k
      · subst hik
        have hk : getEntry ((List.range i).foldl (countInner n) l) i = getEntry l i :=
          hrest i (Nat.le_refl i)
        have hc := childCount_congr l _ hframe i n
        rw [iself (by rw [hlen, ← hn]; exact hin) (by rw [hk, hc]; exact hbound), hk, hc]
      · rw [iother i hik]
        exact hdone i (by omega) hin hbound

theorem countChildren_length (l : List PROCLIST_ENTRY) : (countChildren l).length = l.length :=
  (countChildren_steps l l.length rfl l.length).1

theorem countChildren_frame (l : List PROCLIST_ENTRY) (j : Nat) :
    withoutChildren (getEntry (countChildren l) j) = withoutChildren (getEntry l j) :=
  (countChildren_steps l l.length rfl l.length).2.1 j

/-- The count stored by the first loop, for a list that starts with zero counts. -/
theorem countChildren_num_children (l : List PROCLIST_ENTRY) (hlen : l.length < SIZE_RANGE)
    (h0 : ∀ e ∈ l, e.num_children = 0) (i : Nat) (hi : i < l.length) :
    (getEntry (countChildren l) i).num_children = childCount l i l.length := by
  have hz : (getEntry l i).num_children = 0 := h0 _ (getEntry_mem l i hi)
  have hb := childCount_le l i l.length
  have := (countChildren_steps l l.length rfl l.length).2.2.2 i hi hi (by omega)
  rw [hz, Nat.zero_add] at this
  exact this

/-! ## The second loop: comparing names with the parent -/

theorem parentMatches_congr (l r : List PROCLIST_ENTRY) (hlen : r.length = l.length)
    (hp : ∀ j, (getEntry r j).process_id = (getEntry l j).process_id)
    (hq : ∀ j, (getEntry r j).parent_id = (getEntry l j).parent_id)
    (hm : ∀ j, (getEntry r j).module_name = (getEntry l j).module_name) (i : Nat) :
    parentMatches r i = parentMatches l i := by
  have hfind : ∀ pid, proclist_find_by_pid r pid = proclist_find_by_pid l pid := by
    intro pid
    unfold proclist_find_by_pid
    exact find_by_pid_loop_congr pid r l 0 (map_eq_of_getEntry _ r l hlen hp)
  simp only [parentMatches, hfind, hq, hm]

theorem parentMatches_of_frame (l r : List PROCLIST_ENTRY) (hlen : r.length = l.length)
    (h : ∀ j, withoutFlag (getEntry r j) = withoutFlag (getEntry l j)) (i : Nat) :
    parentMatches r i = parentMatches l i := by
  apply parentMatches_congr l r hlen
  · intro j
    have := congrArg (fun e => PROCLIST_ENTRY.process_id e) (h j)
    exact this
  · intro j
    have := congrArg (fun e => PROCLIST_ENTRY.parent_id e) (h j)
    exact this
  · intro j
    have := congrArg (fun e => PROCLIST_ENTRY.module_name e) (h j)
    exact this

theorem sameNameStep_length (l : List PROCLIST_ENTRY) (ic : Nat) :
    (sameNameStep l ic).length = l.length := by
  simp only [sameNameStep]
  split
  · rfl
  · split
    · simp
    · rfl

theorem sameNameStep_frame (l : List PROCLIST_ENTRY) (ic j : Nat) :
    withoutFlag (getEntry (sameNameStep l ic) j) = withoutFlag (getEntry l j) := by
  simp only [sameNameStep]
  split
  · rfl
  · split
    · rw [getEntry_set]
      split
      · rename_i h
        rw [← h.1]
        rfl
      · rfl
    · rfl

theorem sameNameStep_other (l : List PROCLIST_ENTRY) (ic j : Nat) (hj : j ≠ ic) :
    getEntry (sameNameStep l ic) j = getEntry l j := by
  simp only [sameNameStep]
  split
  · rfl
  · split
    · rw [getEntry_set]
      split
      · rename_i h
        exact absurd h.1.symm hj
      · rfl
    · rfl

theorem sameNameStep_self (l : List PROCLIST_ENTRY) (ic : Nat) (hic : ic < l.length) :
    (getEntry (sameNameStep l ic) ic).parent_has_same_module_name =
      ((getEntry l ic).parent_has_same_module_name || parentMatches l ic) := by
  simp only [sameNameStep, parentMatches]
  by_cases h1 : proclist_find_by_pid l (getEntry l ic).parent_id = 0
  · simp [h1]
  · by_cases h2 : wcsicmp (getEntry l ic).module_name
        (getEntry l (proclist_find_by_pid l (getEntry l ic).parent_id)).module_name = 0
    · simp [h1, h2, getEntry_set, hic]
    · simp [h1, h2]

/-- State of the second loop after its first `k` iterations. -/
theorem markSameName_steps (l : List PROCLIST_ENTRY) (k : Nat) :
    ((List.range k).foldl sameNameStep l).length = l.length ∧
    (∀ j, withoutFlag (getEntry ((List.range k).foldl sameNameStep l) j) =
      withoutFlag (getEntry l j)) ∧
    (∀ j, k ≤ j → getEntry ((List.range k).foldl sameNameStep l) j = getEntry l j) ∧
    (∀ i, i < k → i < l.length →
      (getEntry ((List.range k).foldl sameNameStep l) i).parent_has_same_module_name =
        ((getEntry l i).parent_has_same_module_name || parentMatches l i)) := by
  induction k with
  | zero => simp
  | succ k ih =>
    obtain ⟨hlen, hframe, hrest, hdone⟩ := ih
    rw [List.range_succ, List.foldl_append]
    simp only [List.foldl_cons, List.foldl_nil]
    refine ⟨?_, ?_, ?_, ?_⟩
    · rw [sameNameStep_length, hlen]
    · intro j
      rw [sameNameStep_frame, hframe]
    · intro j hj
      rw [sameNameStep_other _ _ _ (by omega), hrest j (by omega)]
    · intro i hi hil
      by_cases hik : i = k
      · subst hik
        rw [sameNameStep_self _ _ (by rw [hlen]; exact hil), hrest i (Nat.le_refl i),
          parentMatches_of_frame l _ hlen hframe]
      · rw [sameNameStep_other _ _ _ hik]
        exact hdone i (by omega) hil

theorem markSameName_length (l : List PROCLIST_ENTRY) : (markSameName l).length = l.length :=
  (markSameName_steps l l.length).1

theorem markSameName_frame (l : List PROCLIST_ENTRY) (j : Nat) :
    withoutFlag (getEntry (markSameName l) j) = withoutFlag (getEntry l j) :=
  (markSameName_steps l l.length).2.1 j

theorem markSameName_flag (l : List PROCLIST_ENTRY) (i : Nat) (hi : i < l.length) :
    (getEntry (markSameName l) i).parent_has_same_module_name =
      ((getEntry l i).parent_has_same_module_name || parentMatches l i) :=
  (markSameName_steps l l.length).2.2.2 i hi hi

/-! ## The derivation step as a whole -/

theorem derive_length (l : List PROCLIST_ENTRY) : (derive l).length = l.length := by
  unfold derive
  rw [markSameName_length, countChildren_length]

theorem parentMatches_countChildren (l : List PROCLIST_ENTRY) (i : Nat) :
    parentMatches (countChildren l) i = parentMatches l i := by
  apply parentMatches_congr l _ (countChildren_length l)
  · intro j
    have := congrArg (fun e => PROCLIST_ENTRY.process_id e) (countChildren_frame l j)
    exact this
  · intro j
    have := congrArg (fun e => PROCLIST_ENTRY.parent_id e) (countChildren_frame l j)
    exact this
  · intro j
    have := congrArg (fun e => PROCLIST_ENTRY.module_name e) (countChildren_frame l j)
    exact this

/-- Every field of an entry after the derivation step, for a list whose counts start
at zero: the two derived fields hold the count of children and the result of the
parent test, and nothing else changes. -/
theorem derive_entry (l : List PROCLIST_ENTRY) (hlen : l.length < SIZE_RANGE)
    (h0 : ∀ e ∈ l, e.num_children = 0) (i : Nat) (hi : i < l.length) :
    getEntry (derive l) i =
      { getEntry l i with
        num_children := childCount l i l.length
        parent_has_same_module_name :=
          ((getEntry l i).parent_has_same_module_name || parentMatches l i) } := by
  have hA := markSameName_frame (countChildren l) i
  have hB := markSameName_flag (countChildren l) i (by rw [countChildren_length]; exact hi)
  have hC := countChildren_frame l i
  have hD := countChildren_num_children l hlen h0 i hi
  rw [parentMatches_countChildren] at hB
  unfold derive
  generalize getEntry (markSameName (countChildren l)) i = d at hA hB ⊢
  generalize getEntry (countChildren l) i = c at hA hB hC hD
  generalize getEntry l i = e at hB hC ⊢
  generalize childCount l i l.length = n at hD ⊢
  generalize parentMatches l i = b at hB ⊢
  cases d
  cases c
  cases e
  simp only [withoutFlag, withoutChildren, PROCLIST_ENTRY.mk.injEq] at hA hB hC hD ⊢
  obtain ⟨a1, a2, a3, a4, -, a6, a7, a8⟩ := hA
  obtain ⟨c1, c2, c3, -, c5, c6, c7, c8⟩ := hC
  subst a1 a2 a3 a4 a6 a7 a8 c1 c2 c3 c5 c6 c7 c8 hD
  simp [hB]

/-- The flag after the derivation step: the flag before it, or the parent test. -/
theorem derive_flag (l : List PROCLIST_ENTRY) (i : Nat) (hi : i < l.length) :
    (getEntry (derive l) i).parent_has_same_module_name =
      ((getEntry l i).parent_has_same_module_name || parentMatches l i) := by
  unfold derive
  rw [markSameName_flag _ i (by rw [countChildren_length]; exact hi),
    parentMatches_countChildren]
  have := congrArg (fun e => PROCLIST_ENTRY.parent_has_same_module_name e)
    (countChildren_frame l i)
  simp only at this
  rw [show (getEntry (countChildren l) i).parent_has_same_module_name =
    (getEntry l i).parent_has_same_module_name from this]

/-- The lookup by pid returns a position once that position is known to be the first
one holding the pid. -/
theorem find_by_pid_eq_of_first (l : List PROCLIST_ENTRY) (pid p : Nat) (hp : p < l.length)
    (hpid : (getEntry l p).process_id = pid)
    (hmin : ∀ j, j < p → (getEntry l j).process_id ≠ pid) :
    proclist_find_by_pid l pid = p := by
  obtain ⟨_, hq, hqmin⟩ := find_by_pid_found l pid ⟨_, getEntry_mem l p hp, hpid⟩
  rcases Nat.lt_trichotomy (proclist_find_by_pid l pid) p with h | h | h
  · exact absurd hq (hmin _ h)
  · exact h
  · exact absurd hpid (hqmin p h)

/-- The parent test of the second loop in terms of the list: the first position that
holds the parent's pid exists, is not position 0, and carries a name that compares
equal. -/
theorem parentMatches_iff (l : List PROCLIST_ENTRY) (i : Nat) :
    parentMatches l i = true ↔
      ∃ p, p < l.length ∧ (getEntry l p).process_id = (getEntry l i).parent_id ∧
        (∀ j, j < p → (getEntry l j).process_id ≠ (getEntry l i).parent_id) ∧ p ≠ 0 ∧
        wcsicmp (getEntry l i).module_name (getEntry l p).module_name = 0 := by
  constructor
  · intro h
    simp only [parentMatches, Bool.and_eq_true, decide_eq_true_eq] at h
    obtain ⟨hne, hname⟩ := h
    have hex : ∃ e ∈ l, e.process_id = (getEntry l i).parent_id := by
      by_contra hno
      apply hne
      apply find_by_pid_absent
      intro e he hpid
      exact hno ⟨e, he, hpid⟩
    obtain ⟨hlt, hpid, hmin⟩ := find_by_pid_found l _ hex
    exact ⟨_, hlt, hpid, hmin, hne, hname⟩
  · rintro ⟨p, hp, hpid, hmin, hne, hname⟩
    have hfind := find_by_pid_eq_of_first l _ p hp hpid hmin
    simp only [parentMatches, Bool.and_eq_true, decide_eq_true_eq, hfind]
    exact ⟨hne, hname⟩

/-! ## The list before the derivation step -/

theorem foldl_appendEntry_fresh (enrich : Nat → List Nat × List Nat)
    (procs : List PROCESSENTRY32W) (acc : List PROCLIST_ENTRY)
    (hacc : ∀ e ∈ acc, e.num_children = 0 ∧ e.parent_has_same_module_name = false) :
    ∀ e ∈ procs.foldl (appendEntry enrich) acc,
      e.num_children = 0 ∧ e.parent_has_same_module_name = false := by
  induction procs generalizing acc with
  | nil => exact hacc
  | cons p ps ih =>
    apply ih
    intro e he
    simp only [appendEntry, List.mem_append, List.mem_singleton] at he
    rcases he with he | he
    · exact hacc e he
    · subst he
      exact ⟨rfl, rfl⟩

/-- The list built by the first loop of `proclist_get` enters the derivation step with
every count at zero and every flag false. -/
theorem collect_fresh (enrich : Nat → List Nat × List Nat) (procs : List PROCESSENTRY32W) :
    ∀ e ∈ collect enrich procs,
      e.num_children = 0 ∧ e.parent_has_same_module_name = false :=
  foldl_appendEntry_fresh enrich procs [] (by simp)

/-! ## Properties of the lookups -/

/-- C3: when some entry carries the pid, `proclist_find_by_pid` returns the smallest
index whose entry has that pid, so the entry it designates has the queried pid; when
no entry carries the pid, it returns 0, the value that stands for not found. -/
theorem find_by_pid_first_or_zero (l : List PROCLIST_ENTRY) (pid : Nat) :
    ((∃ e ∈ l, e.process_id = pid) →
      proclist_find_by_pid l pid < l.length ∧
      (getEntry l (proclist_find_by_pid l pid)).process_id = pid ∧
      ∀ j, j < proclist_find_by_pid l pid → (getEntry l j).process_id ≠ pid) ∧
    ((∀ e ∈ l, e.process_id ≠ pid) → proclist_find_by_pid l pid = 0) :=
  ⟨find_by_pid_found l pid, find_by_pid_absent l pid⟩

/-- Instance of C3: pid 9 is found at index 1 of `twoEntries`. -/
theorem find_by_pid_first_or_zero_witness :
    (∃ e ∈ twoEntries, e.process_id = 9) ∧
    proclist_find_by_pid twoEntries 9 < twoEntries.length ∧
    (getEntry twoEntries (proclist_find_by_pid twoEntries 9)).process_id = 9 ∧
    ∀ j, j < proclist_find_by_pid twoEntries 9 → (getEntry twoEntries j).process_id ≠ 9 :=
  ⟨by decide, (find_by_pid_first_or_zero twoEntries 9).1 (by decide)⟩

/-- C4: when some entry matches the name (`_wcsicmp` gives 0) and has
`parent_has_same_module_name` false, `proclist_find_parent_by_name` returns the
smallest index of such an entry; when there is none, in particular when every entry of
that name has the flag set, it returns 0, the value that stands for not found. -/
theorem find_parent_by_name_first_or_zero (l : List PROCLIST_ENTRY) (name : List Nat) :
    ((∃ e ∈ l, wcsicmp name e.module_name = 0 ∧ e.parent_has_same_module_name = false) →
      proclist_find_parent_by_name l (some name) < l.length ∧
      wcsicmp name (getEntry l (proclist_find_parent_by_name l (some name))).module_name = 0 ∧
      (getEntry l (proclist_find_parent_by_name l (some name))).parent_has_same_module_name
        = false ∧
      ∀ j, j < proclist_find_parent_by_name l (some name) →
        ¬ (wcsicmp name (getEntry l j).module_name = 0 ∧
          (getEntry l j).parent_has_same_module_name = false)) ∧
    ((∀ e ∈ l, wcsicmp name e.module_name = 0 → e.parent_has_same_module_name = true) →
      proclist_find_parent_by_name l (some name) = 0) := by
  have hdef : proclist_find_parent_by_name l (some name) =
      firstIndexFrom (fun e => decide (wcsicmp name e.module_name = 0) &&
        !e.parent_has_same_module_name) l 0 := by
    simp only [proclist_find_parent_by_name]
    split
    · rename_i h
      have hnil : l = [] := List.length_eq_zero.1 (by omega)
      subst hnil
      rfl
    · exact find_parent_by_name_loop_eq name l 0
  constructor
  · intro h
    have h' : ∃ e ∈ l, (fun e : PROCLIST_ENTRY => decide (wcsicmp name e.module_name = 0) &&
        !e.parent_has_same_module_name) e = true := by
      obtain ⟨e, he, h1, h2⟩ := h
      exact ⟨e, he, by simp [h1, h2]⟩
    obtain ⟨i, hi, hres, hpi, hmin⟩ := firstIndexFrom_found _ l 0 h'
    have hr : proclist_find_parent_by_name l (some name) = i := by rw [hdef, hres]; omega
    rw [hr]
    simp only [Bool.and_eq_true, decide_eq_true_eq, Bool.not_eq_true'] at hpi
    refine ⟨hi, hpi.1, hpi.2, ?_⟩
    intro j hj hboth
    have := hmin j hj
    simp [hboth.1, hboth.2] at this
  · intro h
    rw [hdef]
    apply firstIndexFrom_none
    intro e he
    by_cases h1 : wcsicmp name e.module_name = 0
    · simp [h1, h e he h1]
    · simp [h1]

/-- Instance of C4: the name `B` is found at index 1 of `twoEntries`. -/
theorem find_parent_by_name_first_or_zero_witness :
    (∃ e ∈ twoEntries, wcsicmp [66] e.module_name = 0 ∧
      e.parent_has_same_module_name = false) ∧
    proclist_find_parent_by_name twoEntries (some [66]) < twoEntries.length ∧
    wcsicmp [66]
      (getEntry twoEntries (proclist_find_parent_by_name twoEntries (some [66]))).module_name
        = 0 ∧
    (getEntry twoEntries
      (proclist_find_parent_by_name twoEntries (some [66]))).parent_has_same_module_name
        = false ∧
    ∀ j, j < proclist_find_parent_by_name twoEntries (some [66]) →
      ¬ (wcsicmp [66] (getEntry twoEntries j).module_name = 0 ∧
        (getEntry twoEntries j).parent_has_same_module_name = false) :=
  ⟨by decide, (find_parent_by_name_first_or_zero twoEntries [66]).1 (by decide)⟩

/-! ## Properties of the derivation step -/

theorem derive_process_id (l : List PROCLIST_ENTRY) (j : Nat) :
    (getEntry (derive l) j).process_id = (getEntry l j).process_id := by
  have h1 := congrArg (fun e => PROCLIST_ENTRY.process_id e) (markSameName_frame (countChildren l) j)
  have h2 := congrArg (fun e => PROCLIST_ENTRY.process_id e) (countChildren_frame l j)
  exact Eq.trans h1 h2

theorem derive_parent_id (l : List PROCLIST_ENTRY) (j : Nat) :
    (getEntry (derive l) j).parent_id = (getEntry l j).parent_id := by
  have h1 := congrArg (fun e => PROCLIST_ENTRY.parent_id e) (markSameName_frame (countChildren l) j)
  have h2 := congrArg (fun e => PROCLIST_ENTRY.parent_id e) (countChildren_frame l j)
  exact Eq.trans h1 h2

theorem derive_module_name (l : List PROCLIST_ENTRY) (j : Nat) :
    (getEntry (derive l) j).module_name = (getEntry l j).module_name := by
  have h1 := congrArg (fun e => PROCLIST_ENTRY.module_name e) (markSameName_frame (countChildren l) j)
  have h2 := congrArg (fun e => PROCLIST_ENTRY.module_name e) (countChildren_frame l j)
  exact Eq.trans h1 h2

theorem derive_num_children (l : List PROCLIST_ENTRY) (hlen : l.length < SIZE_RANGE)
    (h0 : ∀ e ∈ l, e.num_children = 0) (i : Nat) (hi : i < l.length) :
    (getEntry (derive l) i).num_children = childCount l i l.length := by
  rw [derive_entry l hlen h0 i hi]

/-- C1: for a list of fewer than `2^64` entries whose counts start at zero, after the
derivation step the `num_children` of the entry at any position `i` is the number of
positions `j` other than `i` whose entry has `parent_id` equal to the `process_id` of
the entry at `i`; the identifiers are those the list had before the step. -/
theorem num_children_counts_other_entries (l : List PROCLIST_ENTRY)
    (hlen : l.length < SIZE_RANGE) (h0 : ∀ e ∈ l, e.num_children = 0)
    (i : Nat) (hi : i < l.length) :
    (getEntry (derive l) i).num_children =
      (List.range (derive l).length).countP (fun j =>
        decide (j ≠ i ∧
          (getEntry (derive l) j).parent_id = (getEntry (derive l) i).process_id)) ∧
    (getEntry (derive l) i).num_children =
      (List.range l.length).countP (fun j =>
        decide (j ≠ i ∧ (getEntry l j).parent_id = (getEntry l i).process_id)) := by
  have hfun : (fun j => decide (j ≠ i ∧ (getEntry l j).parent_id = (getEntry l i).process_id))
      = isChildOf l i := by
    funext j
    simp [isChildOf, Bool.decide_and]
  simp only [derive_length, derive_parent_id, derive_process_id, hfun]
  exact ⟨derive_num_children l hlen h0 i hi, derive_num_children l hlen h0 i hi⟩

/-- Instance of C1: the entry at index 1 of the scenario. -/
theorem num_children_counts_other_entries_witness :
    scenario.length < SIZE_RANGE ∧ (∀ e ∈ scenario, e.num_children = 0) ∧
    1 < scenario.length ∧
    (getEntry (derive scenario) 1).num_children =
      (List.range (derive scenario).length).countP (fun j =>
        decide (j ≠ 1 ∧
          (getEntry (derive scenario) j).parent_id =
            (getEntry (derive scenario) 1).process_id)) ∧
    (getEntry (derive scenario) 1).num_children =
      (List.range scenario.length).countP (fun j =>
        decide (j ≠ 1 ∧ (getEntry scenario j).parent_id = (getEntry scenario 1).process_id)) :=
  ⟨by decide, by decide, by decide,
    num_children_counts_other_entries scenario (by decide) (by decide) 1 (by decide)⟩

/-- C5: the scenario init(1) / shell(2, child of 1) / shell(3, child of 2): the
derivation step gives the counts 1, 1, 0 to pids 1, 2, 3, leaves the flag of pid 2
false, sets the flag of pid 3, and the lookup of the name `shell` in the derived list
returns index 1, the entry of pid 2. -/
theorem scenario_init_shell_shell :
    (derive scenario).map (fun e => (e.process_id, e.num_children)) = [(1, 1), (2, 1), (3, 0)] ∧
    (getEntry (derive scenario) 1).process_id = 2 ∧
    (getEntry (derive scenario) 1).parent_has_same_module_name = false ∧
    (getEntry (derive scenario) 2).process_id = 3 ∧
    (getEntry (derive scenario) 2).parent_has_same_module_name = true ∧
    proclist_find_parent_by_name (derive scenario) (some [115, 104, 101, 108, 108]) = 1 := by
  decide

/-- C10: for a list whose flags start false, the derivation step sets the flag of the
entry at `i` exactly when the first position `p` holding the pid `parent_id` of that
entry exists, is not 0, and `_wcsicmp` of the two module names is 0; so an entry whose
parent is the first entry of the list keeps the flag false; and
`proclist_find_by_pid` returns 0 exactly when no entry has the pid or the first entry
has it. -/
theorem flag_set_iff_parent_found_at_nonzero_index (l : List PROCLIST_ENTRY)
    (hf : ∀ e ∈ l, e.parent_has_same_module_name = false) :
    (∀ i, i < l.length →
      ((getEntry (derive l) i).parent_has_same_module_name = true ↔
        ∃ p, p < l.length ∧ (getEntry l p).process_id = (getEntry l i).parent_id ∧
          (∀ j, j < p → (getEntry l j).process_id ≠ (getEntry l i).parent_id) ∧ p ≠ 0 ∧
          wcsicmp (getEntry l i).module_name (getEntry l p).module_name = 0)) ∧
    (∀ i, i < l.length → (getEntry l 0).process_id = (getEntry l i).parent_id →
      (getEntry (derive l) i).parent_has_same_module_name = false) ∧
    (∀ pid, proclist_find_by_pid l pid = 0 ↔
      ((∀ e ∈ l, e.process_id ≠ pid) ∨ (0 < l.length ∧ (getEntry l 0).process_id = pid))) := by
  have hflag : ∀ i, i < l.length →
      (getEntry (derive l) i).parent_has_same_module_name = parentMatches l i := by
    intro i hi
    rw [derive_flag l i hi, hf _ (getEntry_mem l i hi), Bool.false_or]
  refine ⟨?_, ?_, ?_⟩
  · intro i hi
    rw [hflag i hi]
    exact parentMatches_iff l i
  · intro i hi h0
    rw [hflag i hi]
    have hfind := find_by_pid_eq_of_first l (getEntry l i).parent_id 0 (by omega) h0
      (fun j hj => absurd hj (Nat.not_lt_zero j))
    simp [parentMatches, hfind]
  · intro pid
    constructor
    · intro hz
      by_cases hex : ∃ e ∈ l, e.process_id = pid
      · right
        obtain ⟨hlt, hpid, _⟩ := find_by_pid_found l pid hex
        rw [hz] at hlt hpid
        exact ⟨hlt, hpid⟩
      · left
        intro e he hpid
        exact hex ⟨e, he, hpid⟩
    · rintro (h | ⟨hpos, h0⟩)
      · exact find_by_pid_absent l pid h
      · exact find_by_pid_eq_of_first l pid 0 hpos h0
          (fun j hj => absurd hj (Nat.not_lt_zero j))

/-- Instance of C10 at the scenario. -/
theorem flag_set_iff_parent_found_at_nonzero_index_witness :
    (∀ e ∈ scenario, e.parent_has_same_module_name = false) ∧
    (∀ i, i < scenario.length →
      ((getEntry (derive scenario) i).parent_has_same_module_name = true ↔
        ∃ p, p < scenario.length ∧
          (getEntry scenario p).process_id = (getEntry scenario i).parent_id ∧
          (∀ j, j < p → (getEntry scenario j).process_id ≠ (getEntry scenario i).parent_id) ∧
          p ≠ 0 ∧
          wcsicmp (getEntry scenario i).module_name (getEntry scenario p).module_name = 0)) :=
  ⟨by decide, (flag_set_iff_parent_found_at_nonzero_index scenario (by decide)).1⟩

/-- C2 at `parentAtHead`: the pids are distinct, the entry of pid 2 has its parent
(pid 1) in the list under a module name that compares equal, and the derivation step
leaves its `parent_has_same_module_name` false, because the parent sits at index 0. -/
theorem parent_at_head_flag_not_set :
    (parentAtHead.map (fun e => e.process_id)).Nodup ∧
    (∃ P ∈ parentAtHead, P.process_id = (getEntry parentAtHead 1).parent_id ∧
      wcsicmp (getEntry parentAtHead 1).module_name P.module_name = 0) ∧
    (getEntry (derive parentAtHead) 1).process_id = 2 ∧
    (getEntry (derive parentAtHead) 1).parent_has_same_module_name = false := by
  decide

/-- C9 at `parentAtHead` and its reversal: the two lists are permutations of each
other with distinct pids, and the entry of pid 2 gets the flag false in the first and
true in the second. -/
theorem flag_depends_on_order :
    List.Perm parentAtHead.reverse parentAtHead ∧
    (parentAtHead.map (fun e => e.process_id)).Nodup ∧
    (getEntry (derive parentAtHead) 1).process_id = 2 ∧
    (getEntry (derive parentAtHead) 1).parent_has_same_module_name = false ∧
    (getEntry (derive parentAtHead.reverse) 0).process_id = 2 ∧
    (getEntry (derive parentAtHead.reverse) 0).parent_has_same_module_name = true :=
  ⟨List.reverse_perm _, by decide, by decide, by decide, by decide, by decide⟩

/-! ## Counting parent-child edges from both sides -/

theorem countP_range_eq_sum (p : Nat → Bool) (n : Nat) :
    (List.range n).countP p = ∑ j in Finset.range n, (if p j = true then 1 else 0) := by
  induction n with
  | zero => simp
  | succ n ih =>
    rw [List.range_succ, List.countP_append, Finset.sum_range_succ, ih]
    by_cases h : p n = true <;> simp [List.countP_cons, h]

theorem sum_map_eq_sum_range (f : PROCLIST_ENTRY → Nat) (l : List PROCLIST_ENTRY) :
    (l.map f).sum = ∑ i in Finset.range l.length, f (getEntry l i) := by
  induction l with
  | nil => simp
  | cons a l ih =>
    rw [List.map_cons, List.sum_cons, List.length_cons, Finset.sum_range_succ', ih]
    simp only [getEntry_cons_succ, getEntry_cons_zero]
    omega

theorem index_eq_of_nodup (l : List PROCLIST_ENTRY)
    (hnd : (l.map (fun e => e.process_id)).Nodup) (i k : Nat) (hi : i < l.length)
    (hk : k < l.length) (h : (getEntry l i).process_id = (getEntry l k).process_id) :
    i = k := by
  induction l generalizing i k with
  | nil => simp at hi
  | cons a l ih =>
    rw [List.map_cons, List.nodup_cons] at hnd
    obtain ⟨hnot, hnd'⟩ := hnd
    cases i with
    | zero =>
      cases k with
      | zero => rfl
      | succ k =>
        exfalso
        apply hnot
        rw [getEntry_cons_zero, getEntry_cons_succ] at h
        rw [h]
        exact List.mem_map_of_mem _ (getEntry_mem l k (by simpa using hk))
    | succ i =>
      cases k with
      | zero =>
        exfalso
        apply hnot
        rw [getEntry_cons_zero, getEntry_cons_succ] at h
        rw [← h]
        exact List.mem_map_of_mem _ (getEntry_mem l i (by simpa using hi))
      | succ k =>
        rw [getEntry_cons_succ, getEntry_cons_succ] at h
        rw [ih hnd' i k (by simpa using hi) (by simpa using hk) h]

/-- With distinct pids, a position is the child of at most one position. -/
theorem sum_isChildOf_eq (l : List PROCLIST_ENTRY)
    (hnd : (l.map (fun e => e.process_id)).Nodup) (j : Nat) :
    (∑ i in Finset.range l.length, (if isChildOf l i j = true then 1 else 0)) =
      if hasParentElsewhere l j = true then 1 else 0 := by
  by_cases hex : ∃ i, i < l.length ∧ i ≠ j ∧
      (getEntry l i).process_id = (getEntry l j).parent_id
  · have hb : hasParentElsewhere l j = true := by simpa [hasParentElsewhere] using hex
    obtain ⟨i0, hi0, hne, hpid⟩ := hex
    rw [hb, if_pos rfl, Finset.sum_eq_single i0]
    · have : isChildOf l i0 j = true := by
        have hne' : j ≠ i0 := fun h => hne h.symm
        simp [isChildOf, hpid, hne']
      rw [if_pos this]
    · intro i hi hii0
      have hi' : i < l.length := Finset.mem_range.1 hi
      have : isChildOf l i j = false := by
        by_contra hc
        have hc' : isChildOf l i j = true := by simpa using hc
        simp only [isChildOf, Bool.and_eq_true, decide_eq_true_eq] at hc'
        exact hii0 (index_eq_of_nodup l hnd i i0 hi' hi0 (by rw [hpid, hc'.2]))
      simp [this]
    · intro hnot
      exact absurd (Finset.mem_range.2 hi0) hnot
  · have hb : hasParentElsewhere l j = false := by simpa [hasParentElsewhere] using hex
    rw [hb]
    simp only [Bool.false_eq_true, if_false]
    apply Finset.sum_eq_zero
    intro i hi
    have hi' : i < l.length := Finset.mem_range.1 hi
    have : isChildOf l i j = false := by
      by_contra hc
      have hc' : isChildOf l i j = true := by simpa using hc
      simp only [isChildOf, Bool.and_eq_true, decide_eq_true_eq] at hc'
      exact hex ⟨i, hi', fun h => hc'.1 h.symm, hc'.2.symm⟩
    simp [this]

/-- C6: for a list of fewer than `2^64` entries with pairwise distinct pids whose
counts start at zero, after the derivation step the sum of `num_children` over the
list is the number of positions whose entry has a `parent_id` equal to the
`process_id` of the entry at some other position. -/
theorem sum_num_children_eq_entries_with_parent (l : List PROCLIST_ENTRY)
    (hlen : l.length < SIZE_RANGE) (h0 : ∀ e ∈ l, e.num_children = 0)
    (hnd : (l.map (fun e => e.process_id)).Nodup) :
    ((derive l).map (fun e => e.num_children)).sum =
      (List.range l.length).countP (fun j =>
        decide (∃ i, i < l.length ∧ i ≠ j ∧
          (getEntry l i).process_id = (getEntry l j).parent_id)) := by
  rw [sum_map_eq_sum_range, derive_length]
  have h1 : ∑ i in Finset.range l.length, (getEntry (derive l) i).num_children =
      ∑ i in Finset.range l.length, ∑ j in Finset.range l.length,
        (if isChildOf l i j = true then 1 else 0) := by
    apply Finset.sum_congr rfl
    intro i hi
    rw [derive_num_children l hlen h0 i (Finset.mem_range.1 hi)]
    exact countP_range_eq_sum _ _
  rw [h1, Finset.sum_comm]
  have h2 : ∑ j in Finset.range l.length, ∑ i in Finset.range l.length,
        (if isChildOf l i j = true then 1 else 0) =
      ∑ j in Finset.range l.length, (if hasParentElsewhere l j = true then 1 else 0) :=
    Finset.sum_congr rfl (fun j _ => sum_isChildOf_eq l hnd j)
  rw [h2, ← countP_range_eq_sum]
  rfl

/-- Instance of C6 at the scenario. -/
theorem sum_num_children_eq_entries_with_parent_witness :
    scenario.length < SIZE_RANGE ∧ (∀ e ∈ scenario, e.num_children = 0) ∧
    (scenario.map (fun e => e.process_id)).Nodup ∧
    ((derive scenario).map (fun e => e.num_children)).sum =
      (List.range scenario.length).countP (fun j =>
        decide (∃ i, i < scenario.length ∧ i ≠ j ∧
          (getEntry scenario i).process_id = (getEntry scenario j).parent_id)) :=
  ⟨by decide, by decide, by decide,
    sum_num_children_eq_entries_with_parent scenario (by decide) (by decide) (by decide)⟩

/-! ## The counts do not depend on the order of the list -/

theorem countP_range_getEntry (q : PROCLIST_ENTRY → Bool) (l : List PROCLIST_ENTRY) :
    (List.range l.length).countP (fun j => q (getEntry l j)) = l.countP q := by
  induction l with
  | nil => rfl
  | cons a l ih =>
    rw [List.length_cons, List.range_succ_eq_map, List.countP_cons, List.countP_map,
      List.countP_cons, ← ih]
    rfl

/-- The children of position `i`, plus `i` itself when it is its own parent, are the
entries of the list whose `parent_id` is the pid found at `i`. -/
theorem childCount_add_self (l : List PROCLIST_ENTRY) (i : Nat) (hi : i < l.length) :
    childCount l i l.length +
        (if (getEntry l i).parent_id = (getEntry l i).process_id then 1 else 0) =
      l.countP (fun e => decide (e.parent_id = (getEntry l i).process_id)) := by
  rw [← countP_range_getEntry, childCount, countP_range_eq_sum, countP_range_eq_sum]
  have hterm : ∀ j ∈ Finset.range l.length,
      (if decide ((getEntry l j).parent_id = (getEntry l i).process_id) = true then 1 else 0) =
        (if isChildOf l i j = true then 1 else 0) +
          (if i = j then
            (if (getEntry l i).parent_id = (getEntry l i).process_id then 1 else 0)
          else 0) := by
    intro j _
    by_cases hji : i = j
    · subst hji
      simp [isChildOf]
    · have hji' : j ≠ i := fun h => hji h.symm
      simp [isChildOf, hji, hji']
  rw [Finset.sum_congr rfl hterm, Finset.sum_add_distrib, Finset.sum_ite_eq,
    if_pos (Finset.mem_range.2 hi)]

/-- For a list with distinct pids and any permutation of it, the derivation step
stores the same `num_children` for the entry of a given pid, wherever that entry sits
in either list. -/
theorem num_children_perm (l l' : List PROCLIST_ENTRY) (hperm : List.Perm l' l)
    (hlen : l.length < SIZE_RANGE) (h0 : ∀ e ∈ l, e.num_children = 0)
    (hnd : (l.map (fun e => e.process_id)).Nodup)
    (i i' : Nat) (hi : i < l.length) (hi' : i' < l'.length)
    (hpid : (getEntry l' i').process_id = (getEntry l i).process_id) :
    (getEntry (derive l') i').num_children = (getEntry (derive l) i).num_children := by
  have hlen' : l'.length = l.length := hperm.length_eq
  have h0' : ∀ e ∈ l', e.num_children = 0 := fun e he => h0 e (hperm.mem_iff.1 he)
  have hsame : getEntry l' i' = getEntry l i :=
    List.inj_on_of_nodup_map hnd (hperm.mem_iff.1 (getEntry_mem l' i' hi'))
      (getEntry_mem l i hi) hpid
  rw [derive_num_children l hlen h0 i hi,
    derive_num_children l' (by rw [hlen']; exact hlen) h0' i' hi']
  have h1 := childCount_add_self l i hi
  have h2 := childCount_add_self l' i' hi'
  rw [hsame, hperm.countP_eq] at h2
  omega

/-! ## `GetProcessCommandLine`: the clamped copy -/

theorem max_bytes_eq (cmd_max : Nat) (hc : 1 ≤ cmd_max) :
    max_bytes cmd_max = (cmd_max * 2 - 1) % 2 ^ 16 := by
  simp only [max_bytes, SIZE_RANGE, USHORT_RANGE]
  omega

/-- C7: for a capacity `cmd_max` of at least one wide character and any 16-bit
`Length`, the byte count given to the last `ReadProcessMemory` is
`min(Length, (cmd_max * 2 - 1) mod 2^16)` and is at most `cmd_max * 2`, the size in
bytes of the destination. -/
theorem copy_bytes_at_most_capacity (cmd_max Length : Nat) (hc : 1 ≤ cmd_max)
    (hL : Length < USHORT_RANGE) :
    copy_bytes cmd_max Length = min Length ((cmd_max * 2 - 1) % 2 ^ 16) ∧
    copy_bytes cmd_max Length ≤ cmd_max * 2 := by
  have hm := max_bytes_eq cmd_max hc
  have hle : (cmd_max * 2 - 1) % 2 ^ 16 ≤ cmd_max * 2 - 1 := Nat.mod_le _ _
  simp only [USHORT_RANGE] at hL
  simp only [copy_bytes, USHORT_RANGE, hm, Nat.mod_eq_of_lt hL]
  constructor
  · split <;> omega
  · split <;> omega

/-- Instance of C7: the capacity 4096 of the `commandline` field and the largest
16-bit length. -/
theorem copy_bytes_at_most_capacity_witness :
    1 ≤ 4096 ∧ 65535 < USHORT_RANGE ∧
    copy_bytes 4096 65535 = min 65535 ((4096 * 2 - 1) % 2 ^ 16) ∧
    copy_bytes 4096 65535 ≤ 4096 * 2 :=
  ⟨by decide, by decide, copy_bytes_at_most_capacity 4096 65535 (by decide) (by decide)⟩

theorem memset_length (buf : List Nat) (n : Nat) (h : n ≤ buf.length) :
    (memset buf n).length = buf.length := by
  simp only [memset, List.length_append, List.length_replicate, List.length_drop]
  omega

theorem ReadProcessMemory_length (src dst : List Nat) (n : Nat) (h : n ≤ dst.length) :
    (ReadProcessMemory src dst n).2.length = dst.length := by
  unfold ReadProcessMemory
  split
  · simp only [List.length_append, List.length_take, List.length_drop]
    omega
  · rfl

/-- The destination keeps its size: whatever the target reports, a buffer of `cmd_max`
wide characters is still `cmd_max * 2` bytes long after the call. -/
theorem GetProcessCommandLine_buffer_length (t : TargetProcess) (buf : List Nat)
    (cmd_max : Nat) (hc : 1 ≤ cmd_max) (hsz : cmd_max * 2 < SIZE_RANGE)
    (hbuf : buf.length = cmd_max * 2) :
    ∃ b, (GetProcessCommandLine (some t) (some buf) cmd_max).2 = some b ∧
      b.length = cmd_max * 2 := by
  have hm : (memset buf (cmd_max * 2 % SIZE_RANGE)).length = cmd_max * 2 := by
    rw [Nat.mod_eq_of_lt hsz, memset_length _ _ (by omega), hbuf]
  have hcb : copy_bytes cmd_max t.Length ≤ cmd_max * 2 := by
    have hm := max_bytes_eq cmd_max hc
    have hle : (cmd_max * 2 - 1) % 2 ^ 16 ≤ cmd_max * 2 - 1 := Nat.mod_le _ _
    simp only [copy_bytes, hm]
    split <;> omega
  simp only [GetProcessCommandLine]
  rw [if_neg (by omega)]
  by_cases hq : t.queryStatus ≠ 0
  · rw [if_pos hq]
    exact ⟨_, rfl, hm⟩
  · rw [if_neg hq]
    by_cases hp : t.ppeb = 0
    · rw [if_pos hp]
      exact ⟨_, rfl, hm⟩
    · rw [if_neg hp]
      exact ⟨_, rfl, by rw [ReadProcessMemory_length _ _ _ (by omega), hm]⟩

/-! ## `GetProcessCommandLine`: what a long command line leaves in the buffer -/

theorem wideBytes_length (src : List Nat) : (wideBytes src).length = 2 * src.length := by
  induction src with
  | nil => rfl
  | cons c cs ih => simp only [wideBytes, List.length_cons, ih]; omega

theorem wideBytes_getD_even (src : List Nat) (i : Nat) :
    (wideBytes src).getD (2 * i) 0 = src.getD i 0 % 256 := by
  induction src generalizing i with
  | nil => simp [wideBytes]
  | cons c cs ih =>
    cases i with
    | zero => simp [wideBytes]
    | succ k =>
      have h : 2 * (k + 1) = 2 * k + 1 + 1 := by omega
      rw [h]
      simp only [wideBytes, List.getD_cons_succ]
      exact ih k

theorem wideBytes_getD_odd (src : List Nat) (i : Nat) :
    (wideBytes src).getD (2 * i + 1) 0 = src.getD i 0 / 256 % 256 := by
  induction src generalizing i with
  | nil => simp [wideBytes]
  | cons c cs ih =>
    cases i with
    | zero => simp [wideBytes]
    | succ k =>
      have h : 2 * (k + 1) + 1 = 2 * k + 1 + 1 + 1 := by omega
      rw [h]
      simp only [wideBytes, List.getD_cons_succ]
      exact ih k

theorem copied_getD_lt (src dst : List Nat) (n k : Nat) (hn : n ≤ src.length) (hk : k < n) :
    (src.take n ++ dst.drop n).getD k 0 = src.getD k 0 := by
  simp only [List.getD_eq_getElem?_getD]
  rw [List.getElem?_append_left (by rw [List.length_take]; omega),
    List.getElem?_take_of_lt hk]

theorem copied_getD_ge (src dst : List Nat) (n k : Nat) (hn : n ≤ src.length) (hk : n ≤ k) :
    (src.take n ++ dst.drop n).getD k 0 = dst.getD k 0 := by
  simp only [List.getD_eq_getElem?_getD]
  have hl : (src.take n).length = n := by rw [List.length_take]; omega
  rw [List.getElem?_append_right (by rw [hl]; exact hk), hl, List.getElem?_drop]
  congr 2
  omega

theorem memset_getD_lt (buf : List Nat) (n k : Nat) (hk : k < n) :
    (memset buf n).getD k 0 = 0 := by
  simp only [memset, List.getD_eq_getElem?_getD]
  rw [List.getElem?_append_left (by rw [List.length_replicate]; exact hk),
    List.getElem?_replicate_of_lt hk]
  rfl

/-- The buffer after the call for a command line of at least `cmd_max` characters,
all reads succeeding: the first `cmd_max - 1` characters are those of the source, and
the last character of the buffer holds the low byte of the next source character. -/
theorem GetProcessCommandLine_long_source (t : TargetProcess) (buf src : List Nat)
    (cmd_max : Nat) (hc : 1 ≤ cmd_max) (hcap : cmd_max ≤ 32768)
    (hq : t.queryStatus = 0) (hp : t.ppeb ≠ 0) (hL : t.Length = 2 * src.length)
    (hB : t.Buffer = wideBytes src) (hsrc : cmd_max ≤ src.length)
    (h16 : 2 * src.length < USHORT_RANGE) :
    ∃ b, GetProcessCommandLine (some t) (some buf) cmd_max = (true, some b) ∧
      (∀ i, i < cmd_max - 1 →
        wcharAt b i = src.getD i 0 % 256 + 256 * (src.getD i 0 / 256 % 256)) ∧
      wcharAt b (cmd_max - 1) = src.getD (cmd_max - 1) 0 % 256 := by
  have hcb : copy_bytes cmd_max t.Length = cmd_max * 2 - 1 := by
    have hm := max_bytes_eq cmd_max hc
    simp only [USHORT_RANGE] at h16
    simp only [copy_bytes, hm, hL, USHORT_RANGE]
    split <;> omega
  have hsz : cmd_max * 2 % SIZE_RANGE = cmd_max * 2 := by
    simp only [SIZE_RANGE]
    omega
  have hread : cmd_max * 2 - 1 ≤ (wideBytes src).length := by
    rw [wideBytes_length]; omega
  refine ⟨(wideBytes src).take (cmd_max * 2 - 1) ++
    (memset buf (cmd_max * 2)).drop (cmd_max * 2 - 1), ?_, ?_, ?_⟩
  · simp only [GetProcessCommandLine]
    rw [if_neg (by omega), if_neg (by simp [hq]), if_neg hp, hcb, hsz, hB]
    simp only [ReadProcessMemory]
    rw [if_pos hread]
  · intro i hi
    simp only [wcharAt]
    rw [copied_getD_lt _ _ _ _ hread (by omega), copied_getD_lt _ _ _ _ hread (by omega),
      wideBytes_getD_even, wideBytes_getD_odd]
  · simp only [wcharAt]
    have h1 : 2 * (cmd_max - 1) + 1 = cmd_max * 2 - 1 := by omega
    rw [copied_getD_lt _ _ _ _ hread (by omega), copied_getD_ge _ _ _ _ hread (by omega),
      wideBytes_getD_even, h1, memset_getD_lt _ _ _ (by omega)]
    omega

/-- C8 at a command line of 4096 characters and the capacity 4096 of the
`commandline` field: the source is longer than the capacity minus one, the call
succeeds, and the character at position 4095 of the buffer is the letter `a` (97),
not the terminator 0. -/
theorem long_command_line_not_terminated :
    longCommandLine.length > 4096 - 1 ∧
    ∃ b, GetProcessCommandLine (some longTarget) (some emptyCommandLineField) 4096
        = (true, some b) ∧
      wcharAt b (4096 - 1) = 97 := by
  have hlen : longCommandLine.length = 4096 := List.length_replicate _ _
  have hppeb : longTarget.ppeb ≠ 0 := by
    show (1 : Nat) ≠ 0
    decide
  obtain ⟨b, hb, _, hlast⟩ := GetProcessCommandLine_long_source longTarget
    emptyCommandLineField longCommandLine 4096 (by omega) (by omega) rfl hppeb rfl rfl
    (by rw [hlen]) (by rw [hlen]; decide)
  refine ⟨by rw [hlen]; omega, b, hb, ?_⟩
  rw [hlast]
  unfold longCommandLine
  rw [List.getD_eq_getElem?_getD, List.getElem?_replicate_of_lt (by omega)]
  rfl

/-! ## `_wcsicmp` as equality up to case -/

theorem towlower_eq_zero_iff (c : Nat) : towlower c = 0 ↔ c = 0 := by
  unfold towlower
  split <;> omega

/-- For strings without an embedded terminator, `_wcsicmp` gives 0 exactly when the
two strings are equal after lower-casing. -/
theorem wcsicmp_eq_zero_iff (a b : List Nat) (ha : ∀ c ∈ a, c ≠ 0) (hb : ∀ c ∈ b, c ≠ 0) :
    wcsicmp a b = 0 ↔ a.map towlower = b.map towlower := by
  induction a generalizing b with
  | nil =>
    cases b with
    | nil => simp [wcsicmp]
    | cons y ys =>
      have hy : towlower y ≠ 0 := fun h => hb y (List.mem_cons_self _ _)
        ((towlower_eq_zero_iff y).1 h)
      simp only [wcsicmp, List.map_nil, List.map_cons]
      constructor
      · intro h
        omega
      · intro h
        exact absurd h (by simp)
  | cons x xs ih =>
    have hx : towlower x ≠ 0 := fun h => ha x (List.mem_cons_self _ _)
      ((towlower_eq_zero_iff x).1 h)
    cases b with
    | nil =>
      simp only [wcsicmp, List.map_nil, List.map_cons]
      constructor
      · intro h
        omega
      · intro h
        exact absurd h (by simp)
    | cons y ys =>
      simp only [wcsicmp, List.map_cons, List.cons.injEq]
      by_cases hxy : towlower x = towlower y
      · rw [if_pos ⟨hxy, hx⟩,
          ih ys (fun c hc => ha c (List.mem_cons_of_mem _ hc))
            (fun c hc => hb c (List.mem_cons_of_mem _ hc))]
        simp [hxy]
      · rw [if_neg (fun h => hxy h.1)]
        constructor
        · intro h
          omega
        · intro h
          exact absurd h.1 hxy

/-- The test `_wcsicmp(a, b) == 0` does not depend on the order of its arguments. -/
theorem wcsicmp_eq_zero_comm (a b : List Nat) : wcsicmp a b = 0 ↔ wcsicmp b a = 0 := by
  induction a generalizing b with
  | nil =>
    cases b with
    | nil => simp [wcsicmp]
    | cons y ys =>
      simp only [wcsicmp]
      omega
  | cons x xs ih =>
    cases b with
    | nil =>
      simp only [wcsicmp]
      omega
    | cons y ys =>
      simp only [wcsicmp]
      by_cases hxy : towlower x = towlower y
      · by_cases hx : towlower x = 0
        · rw [if_neg (fun h => h.2 hx), if_neg (fun h => h.2 (by omega))]
          omega
        · rw [if_pos ⟨hxy, hx⟩, if_pos ⟨hxy.symm, by omega⟩]
          exact ih ys
      · rw [if_neg (fun h => hxy h.1), if_neg (fun h => hxy h.1.symm)]
        omega

end Procdump
